import Mathlib

/-!
Verification of the IDLock repository: a BBS+ anonymous-credential identity
flow (issuer, holder, verifier) over a bilinear pairing group, together with
a minimal ledger that anchors DIDs and serves Merkle inclusion proofs.

Embedding conventions:

Merkle / ledger layer (src/blockchain.py).  SHA-256 and the canonical JSON
serialisation are modelled as abstract function parameters: `hp` stands for
`MerkleTree.hash_pair`, `htx` for `MerkleTree.hash_transaction`, `empty0`
for the hash of the empty byte string, and `hhdr` for the block-header hash
in `Block.hash`.  The bottom-up while-loop that folds tree levels is
modelled with an explicit fuel argument equal to the width of the leaf
level, which bounds the number of halving iterations; all definitions are
structurally recursive and kernel-computable.

Cryptographic layer (src/issuer.py, src/user.py, src/verifier.py).  The
pairing groups G1, G2, GT are cyclic of prime order q.  Every group element
is represented by its discrete logarithm with respect to a fixed generator
of its group, an element of `ZMod q`; the group operation becomes `+`,
exponentiation becomes `*`, and the bilinear map becomes multiplication of
the two logarithms (the logarithm of the image under `pair` with respect to
the generator pairing).  Equality of group elements is equality in
`ZMod q`, which is faithful because the groups are cyclic of order q and
the pairing is non-degenerate.  `group.hash` on attribute strings and the
Fiat-Shamir hash over concatenated canonical serialisations are abstract
function parameters (`hashS`, `hashG`); the latter receives the list of
group elements whose serialisations are concatenated, which is faithful
because the serialisation of an element is a function of the element and
the per-type encodings have fixed length.  Randomness (`group.random`) is
modelled by passing the sampled scalars as explicit arguments.
-/

namespace IDLock

/-- A ledger transaction: the pair of opaque strings (u, v) from
`src/blockchain.py`. -/
structure Tx where
  u : String
  v : String
deriving DecidableEq, Repr

/-- Position of a Merkle-proof sibling relative to the running hash,
the "position" field of a proof element. -/
inductive Pos where
  | left
  | right
deriving DecidableEq, Repr

/-- One level of the bottom-up Merkle fold of `MerkleTree.build_merkle_root`:
hash adjacent nodes pairwise, duplicating the last node when the level has
odd width. -/
def pairUp (hp : String → String → String) : List String → List String
  | [] => []
  | [x] => [hp x x]
  | x :: y :: rest => hp x y :: pairUp hp rest

theorem pairUp_length (hp : String → String → String) :
    ∀ l : List String, (pairUp hp l).length = (l.length + 1) / 2
  | [] => rfl
  | [_] => by simp [pairUp]
  | _ :: _ :: rest => by
    simp only [pairUp, List.length_cons, pairUp_length hp rest]
    omega

/-- The while-loop of `MerkleTree.build_merkle_root`, with a fuel argument
bounding the number of halving iterations (the initial level width
suffices).  The empty-level and exhausted-fuel cases are unreachable from
`build_merkle_root`. -/
def merkleLevelsAux (hp : String → String → String) : ℕ → List String → String
  | _, [] => ""
  | _, [x] => x
  | 0, _ :: _ :: _ => ""
  | fuel + 1, x :: y :: rest => merkleLevelsAux hp fuel (pairUp hp (x :: y :: rest))

/-- `MerkleTree.build_merkle_root`: hash of the empty byte string for an
empty list, otherwise the bottom-up fold over the leaf hashes. -/
def build_merkle_root (hp : String → String → String) (htx : Tx → String)
    (empty0 : String) (txs : List Tx) : String :=
  if txs.isEmpty then empty0 else merkleLevelsAux hp (txs.map htx).length (txs.map htx)

/-- The sibling recorded by `MerkleTree.get_merkle_proof` at one level: for
an even index the right neighbour (duplicated left node when the index is
last), for an odd index the left neighbour. -/
def siblingAt (l : List String) (idx : ℕ) : String × Pos :=
  if idx % 2 = 0 then
    (if idx + 1 < l.length then l.getD (idx + 1) "" else l.getD idx "", Pos.right)
  else
    (l.getD (idx - 1) "", Pos.left)

/-- The level loop of `MerkleTree.get_merkle_proof`, fuelled like
`merkleLevelsAux`.  While more than one node remains, record the sibling of
the running index and move to the parent index `idx / 2`. -/
def proofFromLevelAux (hp : String → String → String) :
    ℕ → List String → ℕ → List (String × Pos)
  | _, [], _ => []
  | _, [_], _ => []
  | 0, _ :: _ :: _, _ => []
  | fuel + 1, x :: y :: rest, idx =>
      siblingAt (x :: y :: rest) idx ::
        proofFromLevelAux hp fuel (pairUp hp (x :: y :: rest)) (idx / 2)

/-- `MerkleTree.get_merkle_proof`: empty proof for an out-of-range index
(the Python code also returns the empty list for a negative index, which a
natural-number index cannot express), otherwise the level loop from the
leaf hashes. -/
def get_merkle_proof (hp : String → String → String) (htx : Tx → String)
    (txs : List Tx) (tx_index : ℕ) : List (String × Pos) :=
  if tx_index < txs.length then
    proofFromLevelAux hp (txs.map htx).length (txs.map htx) tx_index
  else []

/-- One step of the verification fold of `MerkleTree.verify_proof`: a left
sibling is prepended, a right sibling is appended, before hashing. -/
def fold_step (hp : String → String → String) (cur : String) (e : String × Pos) : String :=
  match e.2 with
  | Pos.left => hp e.1 cur
  | Pos.right => hp cur e.1

/-- `MerkleTree.verify_proof`: fold the proof from the leaf hash of the
transaction and compare with the root by string equality. -/
def verify_proof (hp : String → String → String) (htx : Tx → String)
    (tx : Tx) (merkle_root : String) (proof : List (String × Pos)) : Bool :=
  decide (proof.foldl (fold_step hp) (htx tx) = merkle_root)

theorem pairUp_getD (hp : String → String → String) :
    ∀ (l : List String) (j : ℕ), 2 * j < l.length →
      (pairUp hp l).getD j "" =
        hp (l.getD (2 * j) "")
          (if 2 * j + 1 < l.length then l.getD (2 * j + 1) "" else l.getD (2 * j) "")
  | [], j, h => by simp at h
  | [x], j, h => by
      have hj : j = 0 := by simp at h; omega
      subst hj
      simp [pairUp]
  | x :: y :: rest, 0, _ => by
      simp [pairUp]
  | x :: y :: rest, j + 1, h => by
      have hrec := pairUp_getD hp rest j (by simp at h; omega)
      have h2 : 2 * (j + 1) = 2 * j + 2 := by ring
      have h3 : 2 * (j + 1) + 1 = 2 * j + 3 := by ring
      simp only [pairUp, List.getD_cons_succ, h2, h3, List.length_cons]
      rw [hrec]
      by_cases hc : 2 * j + 1 < rest.length
      · rw [if_pos hc, if_pos (by omega)]
      · rw [if_neg hc, if_neg (by omega)]

theorem sibling_fold (hp : String → String → String) (l : List String) (idx : ℕ)
    (hidx : idx < l.length) :
    fold_step hp (l.getD idx "") (siblingAt l idx) = (pairUp hp l).getD (idx / 2) "" :=
  by
  rcases Nat.even_or_odd idx with he | ho
  · have hmod : idx % 2 = 0 := Nat.even_iff.mp he
    have hdiv : 2 * (idx / 2) = idx := by omega
    rw [pairUp_getD hp l (idx / 2) (by omega), hdiv]
    simp only [siblingAt, if_pos hmod, fold_step]
  · have hmod : idx % 2 = 1 := Nat.odd_iff.mp ho
    have hdiv : 2 * (idx / 2) = idx - 1 := by omega
    have hone : 2 * (idx / 2) + 1 = idx := by omega
    rw [pairUp_getD hp l (idx / 2) (by omega), hone, hdiv]
    simp only [siblingAt, hmod, if_neg (by omega : ¬ (1 : ℕ) = 0), fold_step]
    rw [if_pos hidx]

theorem fold_path (hp : String → String → String) :
    ∀ (fuel : ℕ) (l : List String) (idx : ℕ), l.length ≤ fuel → idx < l.length →
      (proofFromLevelAux hp fuel l idx).foldl (fold_step hp) (l.getD idx "") =
        merkleLevelsAux hp fuel l
  | _, [], _, _, hidx => by simp at hidx
  | 0, [_], _, hfuel, _ => by simp at hfuel
  | _ + 1, [x], idx, _, hidx => by
      have hj : idx = 0 := by simp at hidx; omega
      subst hj
      simp [proofFromLevelAux, merkleLevelsAux]
  | 0, _ :: _ :: _, _, hfuel, _ => by simp at hfuel
  | fuel + 1, x :: y :: rest, idx, hfuel, hidx => by
      have hlen : (x :: y :: rest).length = rest.length + 2 := by simp
      have hplen : (pairUp hp (x :: y :: rest)).length = (rest.length + 3) / 2 := by
        rw [pairUp_length]; simp
      have hfuel2 : (pairUp hp (x :: y :: rest)).length ≤ fuel := by
        rw [hplen]; simp at hfuel; omega
      have hidx2 : idx / 2 < (pairUp hp (x :: y :: rest)).length := by
        rw [hplen]; simp at hidx; omega
      have hrec := fold_path hp fuel (pairUp hp (x :: y :: rest)) (idx / 2) hfuel2 hidx2
      simp only [proofFromLevelAux, merkleLevelsAux, List.foldl_cons]
      rw [sibling_fold hp (x :: y :: rest) idx hidx]
      exact hrec

/-- C5: for every transaction list and every index in range, the Merkle
proof generated for that index verifies against the root built from the
list; and for a single-transaction list the root is the single leaf hash
and the proof is empty. -/
theorem merkle_inclusion (hp : String → String → String) (htx : Tx → String)
    (empty0 : String) (txs : List Tx) (i : ℕ) (hi : i < txs.length) :
    verify_proof hp htx (txs.getD i ⟨"", ""⟩)
        (build_merkle_root hp htx empty0 txs) (get_merkle_proof hp htx txs i) = true
    ∧ (∀ t : Tx, build_merkle_root hp htx empty0 [t] = htx t
        ∧ get_merkle_proof hp htx [t] 0 = []) := by
  constructor
  · have hne : txs.isEmpty = false := by
      cases txs with
      | nil => simp at hi
      | cons a l => rfl
    have hlen : i < (txs.map htx).length := by simpa using hi
    have hgd : (txs.map htx).getD i "" = htx (txs.getD i ⟨"", ""⟩) := by
      rw [List.getD_eq_getElem _ _ hlen, List.getD_eq_getElem _ _ hi]
      simp
    have hfold := fold_path hp (txs.map htx).length (txs.map htx) i le_rfl hlen
    simp only [verify_proof, build_merkle_root, get_merkle_proof, hne,
      Bool.ite_eq_true_distrib, if_pos hi]
    rw [← hgd, hfold]
    simp
  · intro t
    constructor
    · rfl
    · rfl

/-! Ledger layer: blocks, the chain, the pending buffer and the routes of
`src/blockchain.py`. -/

/-- JSON-like values appearing in route responses, used to state exactly
which fields the ledger endpoints return. -/
inductive JVal where
  | jstr : String → JVal
  | jnum : ℕ → JVal
  | jtx : Tx → JVal
deriving DecidableEq, Repr

/-- Abstract hash context of the ledger layer: `hp` is
`MerkleTree.hash_pair`, `htx` is `MerkleTree.hash_transaction`, `empty0`
the SHA-256 of the empty byte string, and `hhdr` the SHA-256 of the
canonical JSON of a block header (height, prev_hash, merkle_root,
timestamp) as in `Block.hash`. -/
structure HashCtx where
  hp : String → String → String
  htx : Tx → String
  empty0 : String
  hhdr : ℕ → String → String → ℕ → String

/-- A block of `src/blockchain.py`: header fields plus the ordered
transaction list.  Timestamps are modelled as natural numbers. -/
structure Block where
  height : ℕ
  prev_hash : String
  transactions : List Tx
  timestamp : ℕ
  merkle_root : String
deriving DecidableEq, Repr

/-- The `Block` constructor: `merkle_root` is always computed from the
transaction list. -/
def mkBlock (hc : HashCtx) (height : ℕ) (prev_hash : String)
    (txs : List Tx) (t : ℕ) : Block :=
  ⟨height, prev_hash, txs, t, build_merkle_root hc.hp hc.htx hc.empty0 txs⟩

/-- `Block.hash`: hash of the canonical header serialisation. -/
def Block.hashOf (hc : HashCtx) (b : Block) : String :=
  hc.hhdr b.height b.prev_hash b.merkle_root b.timestamp

/-- The 64-character all-zero previous hash of the genesis block. -/
def zeros64 : String :=
  "0000000000000000000000000000000000000000000000000000000000000000"

/-- Mutable state of the `Blockchain` class: the chain and the pending
transaction buffer. -/
structure Blockchain where
  chain : List Block
  pending_transactions : List Tx
deriving DecidableEq, Repr

/-- Placeholder block used as the default of out-of-range list reads;
every read below is guarded by a bound. -/
def blockDflt : Block := ⟨0, "", [], 0, ""⟩

def genesis_tx : Tx := ⟨"genesis", "genesis"⟩

/-- `Blockchain.create_genesis_block` together with `Blockchain.__init__`:
the fresh state holds exactly the genesis block and an empty buffer. -/
def create_genesis_block (hc : HashCtx) (t0 : ℕ) : Blockchain :=
  ⟨[mkBlock hc 0 zeros64 [genesis_tx] t0], []⟩

/-- `Blockchain.add_transaction`: append to the pending buffer and return
the response object (the Chinese status message is abbreviated to a fixed
English string; its content is not load-bearing). -/
def add_transaction (bc : Blockchain) (u v : String) :
    Blockchain × List (String × JVal) :=
  let tx : Tx := ⟨u, v⟩
  let pend := bc.pending_transactions ++ [tx]
  (⟨bc.chain, pend⟩,
    [("message", JVal.jstr "transaction added to buffer"),
     ("transaction", JVal.jtx tx),
     ("pending_count", JVal.jnum pend.length)])

/-- Outcome of `Blockchain.mine_block`: either the empty-buffer refusal
(the message containing the marker the route maps to HTTP 400) or the
freshly mined block. -/
inductive MineOutcome where
  | ledgerEmpty
  | mined (b : Block)
deriving DecidableEq, Repr

/-- The Python expression `self.chain[-1]`; the chain is never empty in a
reachable state. -/
def lastBlock (bc : Blockchain) : Block :=
  bc.chain.getD (bc.chain.length - 1) blockDflt

/-- The block assembled by a successful `Blockchain.mine_block`: height one
above the last block, previous hash the hash of the last block, and the
whole pending buffer as transaction list. -/
def minedBlock (hc : HashCtx) (bc : Blockchain) (t : ℕ) : Block :=
  mkBlock hc ((lastBlock bc).height + 1) (Block.hashOf hc (lastBlock bc))
    bc.pending_transactions t

/-- `Blockchain.mine_block`: refuse on an empty buffer, otherwise append a
block holding the whole buffer and clear the buffer. -/
def mine_block (hc : HashCtx) (bc : Blockchain) (t : ℕ) :
    Blockchain × MineOutcome :=
  if bc.pending_transactions.isEmpty then (bc, MineOutcome.ledgerEmpty)
  else
    (⟨bc.chain ++ [minedBlock hc bc t], []⟩, MineOutcome.mined (minedBlock hc bc t))

/-- The `POST /block/mine` route: the empty-buffer message is mapped to
status 400, success to 201. -/
def mine_block_route (hc : HashCtx) (bc : Blockchain) (t : ℕ) :
    Blockchain × ℕ × MineOutcome :=
  match mine_block hc bc t with
  | (bc2, MineOutcome.ledgerEmpty) => (bc2, 400, MineOutcome.ledgerEmpty)
  | (bc2, MineOutcome.mined b) => (bc2, 201, MineOutcome.mined b)

/-- The ledger operations reachable through the HTTP interface; `submit`
is `POST /transaction/new`, `mine` is `POST /block/mine` with the
wall-clock time at mining passed explicitly. -/
inductive LedgerOp where
  | submit (u v : String)
  | mine (t : ℕ)

def stepOp (hc : HashCtx) (bc : Blockchain) : LedgerOp → Blockchain
  | LedgerOp.submit u v => (add_transaction bc u v).1
  | LedgerOp.mine t => (mine_block hc bc t).1

/-- A run of the ledger service: fold a sequence of operations from the
genesis state. -/
def run_ledger (hc : HashCtx) (t0 : ℕ) (ops : List LedgerOp) : Blockchain :=
  ops.foldl (stepOp hc) (create_genesis_block hc t0)

/-- Invariant carried through every run: back-links and Merkle roots are
correct and the chain is non-empty. -/
def ChainInv (hc : HashCtx) (bc : Blockchain) : Prop :=
  (∀ i, 0 < i → i < bc.chain.length →
      (bc.chain.getD i blockDflt).prev_hash =
        Block.hashOf hc (bc.chain.getD (i - 1) blockDflt))
  ∧ (∀ i, i < bc.chain.length →
      (bc.chain.getD i blockDflt).merkle_root =
        build_merkle_root hc.hp hc.htx hc.empty0
          (bc.chain.getD i blockDflt).transactions)
  ∧ bc.chain ≠ []

theorem chainInv_genesis (hc : HashCtx) (t0 : ℕ) :
    ChainInv hc (create_genesis_block hc t0) := by
  refine ⟨?_, ?_, by simp [create_genesis_block]⟩
  · intro i hi hlen
    simp [create_genesis_block] at hlen
    omega
  · intro i hlen
    simp [create_genesis_block] at hlen
    subst hlen
    rfl

theorem chainInv_step (hc : HashCtx) (bc : Blockchain) (op : LedgerOp)
    (hinv : ChainInv hc bc) : ChainInv hc (stepOp hc bc op) := by
  obtain ⟨hlink, hroot, hne⟩ := hinv
  cases op with
  | submit u v =>
      exact ⟨hlink, hroot, hne⟩
  | mine t =>
      simp only [stepOp, mine_block]
      by_cases hp0 : bc.pending_transactions.isEmpty
      · rw [if_pos hp0]
        exact ⟨hlink, hroot, hne⟩
      · rw [if_neg hp0]
        have hlen : bc.chain.length ≠ 0 := by
          have := List.length_pos.mpr hne
          omega
        have hlast : (bc.chain ++ [minedBlock hc bc t]).getD
            bc.chain.length blockDflt = minedBlock hc bc t := by
          rw [List.getD_eq_getElem _ _ (by simp)]
          simp
        refine ⟨?_, ?_, by simp⟩
        · intro i hi hilen
          simp only [List.length_append, List.length_singleton] at hilen
          by_cases hix : i < bc.chain.length
          · rw [List.getD_append _ _ _ _ hix, List.getD_append _ _ _ _ (by omega)]
            exact hlink i hi hix
          · have hieq : i = bc.chain.length := by omega
            subst hieq
            rw [hlast, List.getD_append _ _ _ _ (by omega)]
            rfl
        · intro i hilen
          simp only [List.length_append, List.length_singleton] at hilen
          by_cases hix : i < bc.chain.length
          · rw [List.getD_append _ _ _ _ hix]
            exact hroot i hix
          · have hieq : i = bc.chain.length := by omega
            subst hieq
            rw [hlast]
            rfl

theorem chainInv_run (hc : HashCtx) :
    ∀ (ops : List LedgerOp) (bc : Blockchain), ChainInv hc bc →
      ChainInv hc (ops.foldl (stepOp hc) bc)
  | [], _, hinv => hinv
  | op :: rest, bc, hinv =>
      chainInv_run hc rest (stepOp hc bc op) (chainInv_step hc bc op hinv)

/-- C6: after any sequence of submit and mine operations from genesis,
every block beyond the genesis links to the hash of its predecessor and
carries the Merkle root of its own transactions; a successful mine drains
the whole pending buffer into the new block and clears it. -/
theorem chain_integrity (hc : HashCtx) (t0 : ℕ) (ops : List LedgerOp) :
    (∀ i, 0 < i → i < (run_ledger hc t0 ops).chain.length →
        ((run_ledger hc t0 ops).chain.getD i blockDflt).prev_hash =
          Block.hashOf hc ((run_ledger hc t0 ops).chain.getD (i - 1) blockDflt))
    ∧ (∀ i, i < (run_ledger hc t0 ops).chain.length →
        ((run_ledger hc t0 ops).chain.getD i blockDflt).merkle_root =
          build_merkle_root hc.hp hc.htx hc.empty0
            ((run_ledger hc t0 ops).chain.getD i blockDflt).transactions)
    ∧ (∀ t, (run_ledger hc t0 ops).pending_transactions ≠ [] →
        (mine_block hc (run_ledger hc t0 ops) t).1.pending_transactions = []
        ∧ (mine_block hc (run_ledger hc t0 ops) t).1.chain =
            (run_ledger hc t0 ops).chain ++ [minedBlock hc (run_ledger hc t0 ops) t]
        ∧ (minedBlock hc (run_ledger hc t0 ops) t).transactions =
            (run_ledger hc t0 ops).pending_transactions) := by
  have hinv := chainInv_run hc ops (create_genesis_block hc t0)
    (chainInv_genesis hc t0)
  obtain ⟨hlink, hroot, _⟩ := hinv
  refine ⟨hlink, hroot, ?_⟩
  intro t hpend
  have hp0 : (run_ledger hc t0 ops).pending_transactions.isEmpty = false := by
    cases hx : (run_ledger hc t0 ops).pending_transactions with
    | nil => exact absurd hx hpend
    | cons a l => rfl
  refine ⟨?_, ?_, rfl⟩
  · simp [mine_block, hp0]
  · simp [mine_block, hp0]

/-- C7: mining with an empty buffer is a no-op refused with the
empty-ledger outcome that the route maps to HTTP 400; the state, and in
particular the chain length, is unchanged. -/
theorem mine_empty_noop (hc : HashCtx) (bc : Blockchain) (t : ℕ)
    (h : bc.pending_transactions = []) :
    mine_block hc bc t = (bc, MineOutcome.ledgerEmpty)
    ∧ mine_block_route hc bc t = (bc, 400, MineOutcome.ledgerEmpty)
    ∧ (mine_block hc bc t).1.chain.length = bc.chain.length := by
  have hp0 : bc.pending_transactions.isEmpty = true := by
    rw [h]; rfl
  refine ⟨?_, ?_, ?_⟩
  · simp [mine_block, hp0]
  · simp [mine_block_route, mine_block, hp0]
  · simp [mine_block, hp0]

/-- C9 counterexample: the response of `add_transaction` (returned with
status 201 by `POST /transaction/new`) for the first submission on a fresh
chain carries no field whose value is the index 0 of the appended
transaction; only the message, the transaction itself and the new pending
count are returned. -/
theorem submit_returns_no_index :
    (∀ kv ∈ (add_transaction
        (create_genesis_block ⟨fun a b => a ++ b, fun t => t.u ++ t.v, "",
          fun _ p m _ => p ++ m⟩ 0) "alice" "bob").2,
      kv.2 ≠ JVal.jnum 0)
    ∧ ((add_transaction
        (create_genesis_block ⟨fun a b => a ++ b, fun t => t.u ++ t.v, "",
          fun _ p m _ => p ++ m⟩ 0) "alice" "bob").2.map Prod.fst =
      ["message", "transaction", "pending_count"]) := by
  constructor
  · decide
  · rfl

/-- C9 amended: `add_transaction` appends the transaction to the pending
buffer unconditionally (no deduplication), leaves the chain unchanged, and
returns the transaction itself together with the new pending count; the
index of the transaction is not part of the response. -/
theorem add_transaction_spec (bc : Blockchain) (u v : String) :
    (add_transaction bc u v).1.pending_transactions =
      bc.pending_transactions ++ [⟨u, v⟩]
    ∧ (add_transaction bc u v).1.chain = bc.chain
    ∧ (add_transaction bc u v).2 =
      [("message", JVal.jstr "transaction added to buffer"),
       ("transaction", JVal.jtx ⟨u, v⟩),
       ("pending_count", JVal.jnum (bc.pending_transactions.length + 1))] := by
  refine ⟨rfl, rfl, ?_⟩
  simp [add_transaction]

/-- The SPV envelope returned by `Blockchain.get_spv_proof`. -/
structure SpvProof where
  transaction : Tx
  block_height : ℕ
  merkle_root : String
  merkle_proof : List (String × Pos)
  tx_index : ℕ
  timestamp : ℕ
deriving DecidableEq, Repr

/-- The search loop of `Blockchain.get_spv_proof`: index of the first
transaction equal to (u, v), scanning left to right and stopping at the
first hit. -/
def find_tx_index (u v : String) : List Tx → Option ℕ
  | [] => none
  | tx :: rest =>
      if tx.u == u && tx.v == v then some 0
      else (find_tx_index u v rest).map (· + 1)

/-- `Blockchain.get_spv_proof`: none for an out-of-range height (the
Python code also returns none for a negative height, which a natural
number cannot express) or a missing transaction, otherwise the envelope
for the first matching index. -/
def get_spv_proof (hc : HashCtx) (bc : Blockchain) (block_height : ℕ)
    (u v : String) : Option SpvProof :=
  if block_height < bc.chain.length then
    let block := bc.chain.getD block_height blockDflt
    match find_tx_index u v block.transactions with
    | none => none
    | some i => some ⟨⟨u, v⟩, block_height, block.merkle_root,
        get_merkle_proof hc.hp hc.htx block.transactions i, i, block.timestamp⟩
  else none

theorem find_tx_index_sound (u v : String) :
    ∀ (l : List Tx) (i : ℕ), find_tx_index u v l = some i →
      i < l.length ∧ l.getD i ⟨"", ""⟩ = ⟨u, v⟩
        ∧ ∀ j, j < i → l.getD j ⟨"", ""⟩ ≠ ⟨u, v⟩
  | [], i, h => by simp [find_tx_index] at h
  | tx :: rest, i, h => by
      by_cases hm : (tx.u == u && tx.v == v) = true
      · rw [find_tx_index, if_pos hm] at h
        simp only [Bool.and_eq_true, beq_iff_eq] at hm
        have hi : i = 0 := (Option.some.inj h).symm
        subst hi
        refine ⟨by simp, ?_, by intro j hj; omega⟩
        simp only [List.getD_cons_zero]
        cases tx
        simp only [Tx.mk.injEq]
        exact hm
      · rw [find_tx_index, if_neg hm] at h
        obtain ⟨i2, hfind, hi⟩ := Option.map_eq_some'.mp h
        obtain ⟨hlt, hget, hbelow⟩ := find_tx_index_sound u v rest i2 hfind
        subst hi
        refine ⟨by simp; omega, by simpa using hget, ?_⟩
        intro j hj
        cases j with
        | zero =>
            simp only [List.getD_cons_zero]
            intro hcontra
            apply hm
            rw [hcontra]
            simp
        | succ j2 =>
            simp only [List.getD_cons_succ]
            exact hbelow j2 (by omega)

theorem find_tx_index_complete (u v : String) :
    ∀ (l : List Tx), (∃ j, j < l.length ∧ l.getD j ⟨"", ""⟩ = ⟨u, v⟩) →
      (find_tx_index u v l).isSome = true
  | [], h => by
      obtain ⟨j, hj, _⟩ := h
      simp at hj
  | tx :: rest, h => by
      by_cases hm : (tx.u == u && tx.v == v) = true
      · rw [find_tx_index, if_pos hm]
        rfl
      · rw [find_tx_index, if_neg hm]
        have hex : ∃ j, j < rest.length ∧ rest.getD j ⟨"", ""⟩ = ⟨u, v⟩ := by
          obtain ⟨j, hj, hget⟩ := h
          cases j with
          | zero =>
              exfalso
              apply hm
              simp only [List.getD_cons_zero] at hget
              rw [hget]
              simp
          | succ j2 =>
              exact ⟨j2, by simp at hj; omega, by simpa using hget⟩
        have hrest := find_tx_index_complete u v rest hex
        cases hfind : find_tx_index u v rest with
        | none => rw [hfind] at hrest; simp at hrest
        | some k => rfl

/-- C10: when the block at a valid height contains more than one
transaction equal to the queried (u, v), the SPV envelope is returned for
the first match: the returned index is the smallest matching index and the
Merkle proof is generated for that index. -/
theorem spv_first_match (hc : HashCtx) (bc : Blockchain) (bh : ℕ)
    (u v : String) (j1 j2 : ℕ) (hh : bh < bc.chain.length) (hj12 : j1 < j2)
    (hj2 : j2 < (bc.chain.getD bh blockDflt).transactions.length)
    (hm1 : (bc.chain.getD bh blockDflt).transactions.getD j1 ⟨"", ""⟩ = ⟨u, v⟩)
    (_hm2 : (bc.chain.getD bh blockDflt).transactions.getD j2 ⟨"", ""⟩ = ⟨u, v⟩) :
    ∃ p : SpvProof, get_spv_proof hc bc bh u v = some p
      ∧ (bc.chain.getD bh blockDflt).transactions.getD p.tx_index ⟨"", ""⟩ = ⟨u, v⟩
      ∧ (∀ j, j < p.tx_index →
          (bc.chain.getD bh blockDflt).transactions.getD j ⟨"", ""⟩ ≠ ⟨u, v⟩)
      ∧ p.tx_index ≤ j1
      ∧ p.merkle_proof = get_merkle_proof hc.hp hc.htx
          (bc.chain.getD bh blockDflt).transactions p.tx_index := by
  have hex : ∃ j, j < (bc.chain.getD bh blockDflt).transactions.length ∧
      (bc.chain.getD bh blockDflt).transactions.getD j ⟨"", ""⟩ = ⟨u, v⟩ :=
    ⟨j1, by omega, hm1⟩
  have hsome := find_tx_index_complete u v _ hex
  cases hfind : find_tx_index u v (bc.chain.getD bh blockDflt).transactions with
  | none => rw [hfind] at hsome; simp at hsome
  | some i =>
      obtain ⟨hlt, hget, hbelow⟩ := find_tx_index_sound u v _ i hfind
      have hproof : get_spv_proof hc bc bh u v = some ⟨⟨u, v⟩, bh,
          (bc.chain.getD bh blockDflt).merkle_root,
          get_merkle_proof hc.hp hc.htx
            (bc.chain.getD bh blockDflt).transactions i,
          i, (bc.chain.getD bh blockDflt).timestamp⟩ := by
        simp only [get_spv_proof, if_pos hh]
        rw [hfind]
      refine ⟨_, hproof, hget, hbelow, ?_, rfl⟩
      show i ≤ j1
      by_contra hgt
      push_neg at hgt
      exact hbelow j1 (by omega) hm1

/-! Cryptographic layer: the BBS+ issuer (src/issuer.py), the holder
(src/user.py) and the verifier (src/verifier.py) in the discrete-log
model over `ZMod q` described at the head of the file.  The group
operation of G1 and G2 is `+` on logarithms, exponentiation is `*`, and
the pairing multiplies the logarithms of its two arguments. -/

/-- Public parameters of `Issuer.setup`, by discrete logarithm: `g1` and
`g2` are the logarithms of the two random generators with respect to the
fixed base points, `pk` the logarithm of `g2 ** sk`, `hp` the unused
auxiliary base, and `h i` the attribute base for slot i (with `h 0` the
blinding base h0). -/
structure PubParams (q : ℕ) where
  n : ℕ
  g1 : ZMod q
  g2 : ZMod q
  pk : ZMod q
  hp : ZMod q
  h : ℕ → ZMod q

/-- A credential as returned by `Issuer.issue`. -/
structure Credential (q : ℕ) where
  A : ZMod q
  x : ZMod q
  s : ZMod q
deriving DecidableEq

/-- One attribute slot of an issue request after JSON parsing: a cleartext
value, a blinded commitment with its Schnorr proof (R, z), or a dict with
neither shape (the final `else` branch of the loops in `Issuer.issue` and
the `/issue` route). -/
inductive AttrSlot (q : ℕ) where
  | value (v : String)
  | blind (commitment R z : ZMod q)
  | malformed
deriving DecidableEq

/-- The bilinear map in the discrete-log model: the logarithm of
`pair(X, Y)` with respect to the generator pairing is the product of the
logarithms of X and Y. -/
def pairE {q : ℕ} (a b : ZMod q) : ZMod q := a * b

/-- `Issuer.verify_nizk`: recompute the Fiat-Shamir challenge
c = H(ser h_i || ser C || ser R) and accept iff `h_i ** z == C ** c * R`,
which in logarithms reads `z * h_i = c * C + R`. -/
def verify_nizk {q : ℕ} (hashG : List (ZMod q) → ZMod q)
    (h_i commitment R z : ZMod q) : Bool :=
  decide (z * h_i = hashG [h_i, commitment, R] * commitment + R)

/-- The attribute loop of `Issuer.issue` over the slot indices 1..n,
accumulating the group element A: a missing slot or a malformed slot or a
failing NIZK aborts with none; a cleartext slot contributes
`h_i ** H(value)`, an accepted blinded slot contributes the commitment. -/
def issue_acc {q : ℕ} (hashS : String → ZMod q) (hashG : List (ZMod q) → ZMod q)
    (PP : PubParams q) (attrs : ℕ → Option (AttrSlot q)) :
    List ℕ → ZMod q → Option (ZMod q)
  | [], A => some A
  | i :: rest, A =>
      match attrs i with
      | none => none
      | some (AttrSlot.value v) =>
          issue_acc hashS hashG PP attrs rest (A + hashS v * PP.h i)
      | some (AttrSlot.blind C R z) =>
          if verify_nizk hashG (PP.h i) C R z then
            issue_acc hashS hashG PP attrs rest (A + C)
          else none
      | some AttrSlot.malformed => none

/-- `Issuer.issue`: start from `g1 * h0 ** s`, fold the attribute loop,
then finalize `A := A ** (1 / (sk + x))` and return (A, x, s).  The
sampled scalars x and s are passed explicitly.  There is no check that
`sk + x` is nonzero; in the model the inverse of zero is zero. -/
def issue {q : ℕ} (hashS : String → ZMod q) (hashG : List (ZMod q) → ZMod q)
    (PP : PubParams q) (sk : ZMod q) (attrs : ℕ → Option (AttrSlot q))
    (x s : ZMod q) : Option (Credential q) :=
  match issue_acc hashS hashG PP attrs (List.range' 1 PP.n) (PP.g1 + s * PP.h 0) with
  | none => none
  | some B => some ⟨(sk + x)⁻¹ * B, x, s⟩

/-- An all-cleartext attribute map, the shape sent by
`User.request_credential`. -/
def cleartextAttrs {q : ℕ} (vals : ℕ → String) : ℕ → Option (AttrSlot q) :=
  fun i => some (AttrSlot.value (vals i))

/-- The scalar of an attribute value, `H(value, ZR)`. -/
def messageOf {q : ℕ} (hashS : String → ZMod q) (attrs : ℕ → String) (i : ℕ) :
    ZMod q := hashS (attrs i)

/-- The full commitment `B = g1 * h0 ** s * prod over i of h_i ** m_i`
computed in `User.build_identity_proof`. -/
def Bfull {q : ℕ} (hashS : String → ZMod q) (PP : PubParams q)
    (attrs : ℕ → String) (s : ZMod q) : ZMod q :=
  PP.g1 + s * PP.h 0 + ∑ i in Finset.Icc 1 PP.n, messageOf hashS attrs i * PP.h i

/-- The disclosed commitment `B_D = g1 * prod over j in D of h_j ** m_j`,
computed identically by the holder and the verifier. -/
def Bdisc {q : ℕ} (hashS : String → ZMod q) (PP : PubParams q)
    (disclosed : ℕ → String) (D : Finset ℕ) : ZMod q :=
  PP.g1 + ∑ j in D, hashS (disclosed j) * PP.h j

/-- The proof envelope produced by `User.build_identity_proof` and consumed
by `Verifier.verify`.  The disclosed attribute dict is modelled by the
index set `D` together with the value map `disclosed`; the z_hidden dict by
the index set `hidden` together with the response map `z_hidden` (the
string keys of the Python dicts carry exactly these indices). -/
structure IdentityProof (q : ℕ) where
  D : Finset ℕ
  disclosed : ℕ → String
  did_u : ZMod q
  did_v : ZMod q
  A_prime : ZMod q
  A_bar : ZMod q
  c : ZMod q
  z_x : ZMod q
  z_r1 : ZMod q
  z_s_prime : ZMod q
  z_s : ZMod q
  R3 : ZMod q
  hidden : Finset ℕ
  z_hidden : ℕ → ZMod q

/-- The Schnorr commitment T of `User.build_identity_proof`:
`T = A_prime ** (-k_x) * B_D ** k_r1 * h0 ** k_s_prime *
prod over hidden i of h_i ** k_m_i`. -/
def proverT {q : ℕ} (hashS : String → ZMod q) (PP : PubParams q)
    (attrs : ℕ → String) (D : Finset ℕ) (k_x k_r1 k_sp : ZMod q)
    (k_m : ℕ → ZMod q) (Ap : ZMod q) : ZMod q :=
  (-k_x) * Ap + k_r1 * Bdisc hashS PP attrs D + k_sp * PP.h 0
    + ∑ i in Finset.Icc 1 PP.n \ D, k_m i * PP.h i

/-- The Fiat-Shamir challenge of the holder,
`c = H(ser A_prime || ser A_bar || ser T || ser R3)`. -/
def proverChallenge {q : ℕ} (hashS : String → ZMod q)
    (hashG : List (ZMod q) → ZMod q) (PP : PubParams q) (attrs : ℕ → String)
    (A x s v_int : ZMod q) (D : Finset ℕ) (r1 k_x k_r1 k_sp k_s : ZMod q)
    (k_m : ℕ → ZMod q) : ZMod q :=
  hashG [r1 * A, (-x) * (r1 * A) + r1 * Bfull hashS PP attrs s,
    proverT hashS PP attrs D k_x k_r1 k_sp k_m (r1 * A), k_s * v_int]

/-- `User.build_identity_proof`.  The role swap at the holder/verifier
boundary is part of the definition: the exposed `did_u` is the internal v,
the exposed `did_v` is the internal u.  The sampled scalars r1, the four
Schnorr nonces and the nonce map for hidden slots are passed explicitly;
`hidden` is the complement of the disclosed set inside 1..n. -/
def build_identity_proof {q : ℕ} (hashS : String → ZMod q)
    (hashG : List (ZMod q) → ZMod q) (PP : PubParams q) (attrs : ℕ → String)
    (A x s u_int v_int : ZMod q) (D : Finset ℕ)
    (r1 k_x k_r1 k_sp k_s : ZMod q) (k_m : ℕ → ZMod q) : IdentityProof q :=
  { D := D
    disclosed := attrs
    did_u := v_int
    did_v := u_int
    A_prime := r1 * A
    A_bar := (-x) * (r1 * A) + r1 * Bfull hashS PP attrs s
    c := proverChallenge hashS hashG PP attrs A x s v_int D r1 k_x k_r1 k_sp k_s k_m
    z_x := k_x + proverChallenge hashS hashG PP attrs A x s v_int D r1 k_x k_r1 k_sp k_s k_m * x
    z_r1 := k_r1 + proverChallenge hashS hashG PP attrs A x s v_int D r1 k_x k_r1 k_sp k_s k_m * r1
    z_s_prime := k_sp + proverChallenge hashS hashG PP attrs A x s v_int D r1 k_x k_r1 k_sp k_s k_m * (s * r1)
    z_s := k_s + proverChallenge hashS hashG PP attrs A x s v_int D r1 k_x k_r1 k_sp k_s k_m * s
    R3 := k_s * v_int
    hidden := Finset.Icc 1 PP.n \ D
    z_hidden := fun i =>
      k_m i + proverChallenge hashS hashG PP attrs A x s v_int D r1 k_x k_r1 k_sp k_s k_m
        * (messageOf hashS attrs i * r1) }

/-- Result of `Verifier.verify`, tagging the four failure messages and the
success case. -/
inductive VerifyResult where
  | policyViolation
  | pairingFailed
  | schnorrFailed
  | didFailed
  | ok
deriving DecidableEq, Repr

/-- The fourth check of `Verifier.verify`: `u ** z_s == R3 * v ** c`, in
logarithms `z_s * u = R3 + c * v`. -/
def did_check {q : ℕ} (c z_s u v R3 : ZMod q) : Bool :=
  decide (R3 + c * v = z_s * u)

/-- The re-derived Schnorr commitment of `Verifier.verify`:
`T_prime = A_prime ** (-z_x) * B_D ** z_r1 * h0 ** z_s_prime *
prod over hidden i of h_i ** z_hidden_i * A_bar ** (-c)`. -/
def verifierT {q : ℕ} (hashS : String → ZMod q) (PP : PubParams q)
    (pf : IdentityProof q) : ZMod q :=
  (-pf.z_x) * pf.A_prime + pf.z_r1 * Bdisc hashS PP pf.disclosed pf.D
    + pf.z_s_prime * PP.h 0 + (∑ i in pf.hidden, pf.z_hidden i * PP.h i)
    + (-pf.c) * pf.A_bar

/-- `Verifier.verify`: the four checks in order, the first failure
short-circuiting.  The policy is the dict of required disclosed values,
keyed by slot index. -/
def verify {q : ℕ} (hashS : String → ZMod q) (hashG : List (ZMod q) → ZMod q)
    (PP : PubParams q) (policy : List (ℕ × String)) (pf : IdentityProof q) :
    VerifyResult :=
  if policy.all fun kr => decide (kr.1 ∈ pf.D) && (pf.disclosed kr.1 == kr.2) then
    if pairE pf.A_bar PP.g2 = pairE pf.A_prime PP.pk then
      if pf.c = hashG [pf.A_prime, pf.A_bar, verifierT hashS PP pf, pf.R3] then
        if did_check pf.c pf.z_s pf.did_u pf.did_v pf.R3 then VerifyResult.ok
        else VerifyResult.didFailed
      else VerifyResult.schnorrFailed
    else VerifyResult.pairingFailed
  else VerifyResult.policyViolation

/-- Error kinds of the `/issue` route: attribute-count mismatch, a missing
slot, a slot with neither the cleartext nor the blinded shape, and the
generic refusal returned when `Issuer.issue` yields none (which covers a
rejected NIZK).  Wire-level deserialization failures are below the level
of this model. -/
inductive IssueError where
  | countMismatch
  | missingSlot (i : ℕ)
  | formatError (i : ℕ)
  | issueFailed
deriving DecidableEq, Repr

/-- The per-slot validation loop of the `/issue` route: the first missing
slot or malformed slot aborts with its distinct error. -/
def validate_attrs {q : ℕ} (raw : ℕ → Option (AttrSlot q)) :
    List ℕ → Option IssueError
  | [] => none
  | i :: rest =>
      match raw i with
      | none => some (IssueError.missingSlot i)
      | some AttrSlot.malformed => some (IssueError.formatError i)
      | some _ => validate_attrs raw rest

/-- The `/issue` route: check the attribute count, validate the slots,
then call `Issuer.issue` and map none to the generic refusal. -/
def issue_route {q : ℕ} (hashS : String → ZMod q)
    (hashG : List (ZMod q) → ZMod q) (PP : PubParams q) (sk : ZMod q)
    (raw : ℕ → Option (AttrSlot q)) (rawCount : ℕ) (x s : ZMod q) :
    Except IssueError (Credential q) :=
  if rawCount ≠ PP.n then Except.error IssueError.countMismatch
  else
    match validate_attrs raw (List.range' 1 PP.n) with
    | some e => Except.error e
    | none =>
        match issue hashS hashG PP sk raw x s with
        | none => Except.error IssueError.issueFailed
        | some cred => Except.ok cred

/-- A slot is filled correctly with scalar m: either a cleartext value
hashing to m, or a blinded commitment to m under the slot base together
with an accepted NIZK. -/
def SlotOk {q : ℕ} (hashS : String → ZMod q) (hashG : List (ZMod q) → ZMod q)
    (PP : PubParams q) (attrs : ℕ → Option (AttrSlot q)) (m : ℕ → ZMod q)
    (i : ℕ) : Prop :=
  (∃ v, attrs i = some (AttrSlot.value v) ∧ m i = hashS v) ∨
  (∃ R z, attrs i = some (AttrSlot.blind (m i * PP.h i) R z) ∧
    verify_nizk hashG (PP.h i) (m i * PP.h i) R z = true)

theorem issue_acc_eq {q : ℕ} (hashS : String → ZMod q)
    (hashG : List (ZMod q) → ZMod q) (PP : PubParams q)
    (attrs : ℕ → Option (AttrSlot q)) (m : ℕ → ZMod q) :
    ∀ (l : List ℕ) (A0 : ZMod q),
      (∀ i ∈ l, SlotOk hashS hashG PP attrs m i) →
      issue_acc hashS hashG PP attrs l A0 =
        some (A0 + (l.map fun i => m i * PP.h i).sum)
  | [], A0, _ => by simp [issue_acc]
  | i :: rest, A0, hslots => by
      have hrest : ∀ j ∈ rest, SlotOk hashS hashG PP attrs m j :=
        fun j hj => hslots j (List.mem_cons_of_mem i hj)
      rcases hslots i (List.mem_cons_self i rest) with ⟨v, hv, hm⟩ | ⟨R, z, hC, hnz⟩
      · rw [show issue_acc hashS hashG PP attrs (i :: rest) A0 =
            issue_acc hashS hashG PP attrs rest (A0 + hashS v * PP.h i) by
          simp [issue_acc, hv]]
        rw [issue_acc_eq hashS hashG PP attrs m rest (A0 + hashS v * PP.h i) hrest]
        rw [← hm]
        simp only [List.map_cons, List.sum_cons]
        rw [add_assoc]
      · rw [show issue_acc hashS hashG PP attrs (i :: rest) A0 =
            issue_acc hashS hashG PP attrs rest (A0 + m i * PP.h i) by
          simp [issue_acc, hC, hnz]]
        rw [issue_acc_eq hashS hashG PP attrs m rest (A0 + m i * PP.h i) hrest]
        simp only [List.map_cons, List.sum_cons]
        rw [add_assoc]

theorem issue_acc_none {q : ℕ} (hashS : String → ZMod q)
    (hashG : List (ZMod q) → ZMod q) (PP : PubParams q)
    (attrs : ℕ → Option (AttrSlot q)) (i : ℕ) (C R z : ZMod q)
    (hslot : attrs i = some (AttrSlot.blind C R z))
    (hnz : verify_nizk hashG (PP.h i) C R z = false) :
    ∀ (l : List ℕ) (A0 : ZMod q), i ∈ l →
      issue_acc hashS hashG PP attrs l A0 = none
  | [], _, hmem => absurd hmem (List.not_mem_nil i)
  | j :: rest, A0, hmem => by
      by_cases hij : i = j
      · subst hij
        simp [issue_acc, hslot, hnz]
      · have hmem2 : i ∈ rest := by
          rcases List.mem_cons.mp hmem with h1 | h2
          · exact absurd h1 hij
          · exact h2
        cases hj : attrs j with
        | none => simp [issue_acc, hj]
        | some sl =>
            cases sl with
            | value v =>
                simp only [issue_acc, hj]
                exact issue_acc_none hashS hashG PP attrs i C R z hslot hnz
                  rest _ hmem2
            | blind C2 R2 z2 =>
                simp only [issue_acc, hj]
                by_cases hn2 : verify_nizk hashG (PP.h j) C2 R2 z2 = true
                · rw [if_pos hn2]
                  exact issue_acc_none hashS hashG PP attrs i C R z hslot hnz
                    rest _ hmem2
                · rw [if_neg hn2]
            | malformed => simp [issue_acc, hj]

theorem range'_map_sum {M : Type} [AddCommMonoid M] (f : ℕ → M) :
    ∀ n : ℕ, ((List.range' 1 n).map f).sum = ∑ i in Finset.Icc 1 n, f i
  | 0 => by simp
  | n + 1 => by
      have hcat : List.range' 1 (n + 1) = List.range' 1 n ++ [1 + n] :=
        List.range'_1_concat 1 n
      rw [hcat, List.map_append, List.sum_append,
        range'_map_sum f n, Finset.sum_Icc_succ_top (by omega : 1 ≤ n + 1)]
      simp [add_comm 1 n]

/-- C2: for every well-formed attribute vector of exactly n cleartext or
correctly-blinded slots, the credential (A, x, s) returned by
`Issuer.issue` satisfies the BBS+ relation
`pair(A, g2 ** x * pk) = pair(g1 * h0 ** s * prod of h_i ** m_i, g2)`,
with m_i the hash of the value for cleartext slots and the committed
scalar for blinded slots. -/
theorem issue_bbs_relation {q : ℕ} [Fact q.Prime] (hashS : String → ZMod q)
    (hashG : List (ZMod q) → ZMod q) (PP : PubParams q) (sk x s : ZMod q)
    (attrs : ℕ → Option (AttrSlot q)) (m : ℕ → ZMod q) (cred : Credential q)
    (hpk : PP.pk = sk * PP.g2)
    (hsk : sk + x ≠ 0)
    (hslots : ∀ i ∈ Finset.Icc 1 PP.n, SlotOk hashS hashG PP attrs m i)
    (hiss : issue hashS hashG PP sk attrs x s = some cred) :
    pairE cred.A (x * PP.g2 + PP.pk) =
      pairE (PP.g1 + s * PP.h 0 + ∑ i in Finset.Icc 1 PP.n, m i * PP.h i)
        PP.g2 := by
  have hlist : ∀ i ∈ List.range' 1 PP.n, SlotOk hashS hashG PP attrs m i := by
    intro i hi
    apply hslots
    rw [Finset.mem_Icc]
    have := List.mem_range'_1.mp hi
    omega
  have hacc := issue_acc_eq hashS hashG PP attrs m (List.range' 1 PP.n)
    (PP.g1 + s * PP.h 0) hlist
  have hred : issue hashS hashG PP sk attrs x s =
      some ⟨(sk + x)⁻¹ * (PP.g1 + s * PP.h 0 +
        ((List.range' 1 PP.n).map fun i => m i * PP.h i).sum), x, s⟩ := by
    unfold issue
    rw [hacc]
  rw [hred] at hiss
  have hcred := Option.some.inj hiss
  rw [← hcred]
  rw [range'_map_sum (fun i => m i * PP.h i) PP.n]
  unfold pairE
  rw [hpk]
  field_simp
  ring

theorem verify_ok_of_checks {q : ℕ} (hashS : String → ZMod q)
    (hashG : List (ZMod q) → ZMod q) (PP : PubParams q)
    (policy : List (ℕ × String)) (pf : IdentityProof q)
    (h1 : (policy.all fun kr =>
      decide (kr.1 ∈ pf.D) && (pf.disclosed kr.1 == kr.2)) = true)
    (h2 : pairE pf.A_bar PP.g2 = pairE pf.A_prime PP.pk)
    (h3 : pf.c = hashG [pf.A_prime, pf.A_bar, verifierT hashS PP pf, pf.R3])
    (h4 : did_check pf.c pf.z_s pf.did_u pf.did_v pf.R3 = true) :
    verify hashS hashG PP policy pf = VerifyResult.ok := by
  unfold verify
  rw [if_pos h1, if_pos h2, if_pos h3, if_pos h4]

theorem T_match {q : ℕ} (hashS : String → ZMod q) (PP : PubParams q)
    (vals : ℕ → String) (s r1 x c k_x k_r1 k_sp : ZMod q) (k_m : ℕ → ZMod q)
    (D : Finset ℕ) (hD : D ⊆ Finset.Icc 1 PP.n) (A1 : ZMod q) :
    (-(k_x + c * x)) * A1 + (k_r1 + c * r1) * Bdisc hashS PP vals D
      + (k_sp + c * (s * r1)) * PP.h 0
      + (∑ i in Finset.Icc 1 PP.n \ D,
          (k_m i + c * (messageOf hashS vals i * r1)) * PP.h i)
      + (-c) * ((-x) * A1 + r1 * Bfull hashS PP vals s)
    = proverT hashS PP vals D k_x k_r1 k_sp k_m A1 := by
  have hsplit : (∑ i in Finset.Icc 1 PP.n \ D, hashS (vals i) * PP.h i)
      + (∑ j in D, hashS (vals j) * PP.h j)
      = ∑ i in Finset.Icc 1 PP.n, hashS (vals i) * PP.h i :=
    Finset.sum_sdiff hD
  have hterm : ∀ i ∈ Finset.Icc 1 PP.n \ D,
      (k_m i + c * (messageOf hashS vals i * r1)) * PP.h i =
        k_m i * PP.h i + c * r1 * (hashS (vals i) * PP.h i) := by
    intro i _
    simp only [messageOf]
    ring
  rw [Finset.sum_congr rfl hterm, Finset.sum_add_distrib, ← Finset.mul_sum]
  unfold proverT Bfull Bdisc
  simp only [messageOf]
  linear_combination (c * r1) * hsplit

/-- C1: with public parameters shared between Issuer and Verifier, for
every credential issued over a well-formed cleartext attribute vector,
every disclosure set D, and a DID generated from the credential scalar s,
if the policy is satisfied by the disclosed values then the proof produced
by `User.build_identity_proof` passes all four checks of
`Verifier.verify`. -/
theorem disclosure_correct {q : ℕ} [Fact q.Prime] (hashS : String → ZMod q)
    (hashG : List (ZMod q) → ZMod q) (PP : PubParams q) (sk : ZMod q)
    (vals : ℕ → String) (x s r1 k_x k_r1 k_sp k_s v_int : ZMod q)
    (k_m : ℕ → ZMod q) (policy : List (ℕ × String)) (D : Finset ℕ)
    (cred : Credential q)
    (hpk : PP.pk = sk * PP.g2)
    (hsk : sk + x ≠ 0)
    (hiss : issue hashS hashG PP sk (cleartextAttrs vals) x s = some cred)
    (hD : D ⊆ Finset.Icc 1 PP.n)
    (hpol : ∀ kr ∈ policy, kr.1 ∈ D ∧ vals kr.1 = kr.2) :
    verify hashS hashG PP policy
      (build_identity_proof hashS hashG PP vals cred.A cred.x cred.s
        (cred.s * v_int) v_int D r1 k_x k_r1 k_sp k_s k_m) =
      VerifyResult.ok := by
  obtain ⟨cA, cx, cs⟩ := cred
  have hslots : ∀ i ∈ List.range' 1 PP.n,
      SlotOk hashS hashG PP (cleartextAttrs vals) (fun i => hashS (vals i)) i :=
    fun i _ => Or.inl ⟨vals i, rfl, rfl⟩
  have hacc := issue_acc_eq hashS hashG PP (cleartextAttrs vals)
    (fun i => hashS (vals i)) (List.range' 1 PP.n) (PP.g1 + s * PP.h 0) hslots
  have hred : issue hashS hashG PP sk (cleartextAttrs vals) x s =
      some ⟨(sk + x)⁻¹ * (PP.g1 + s * PP.h 0 +
        ((List.range' 1 PP.n).map fun i => hashS (vals i) * PP.h i).sum),
        x, s⟩ := by
    unfold issue
    rw [hacc]
  rw [hred] at hiss
  have hinj := Option.some.inj hiss
  simp only [Credential.mk.injEq] at hinj
  obtain ⟨hA, hx, hs⟩ := hinj
  subst hx
  subst hs
  have hrel : (sk + x) * cA = Bfull hashS PP vals s := by
    rw [← hA, ← mul_assoc, mul_inv_cancel₀ hsk, one_mul,
      range'_map_sum (fun i => hashS (vals i) * PP.h i) PP.n]
    unfold Bfull
    simp only [messageOf]
  apply verify_ok_of_checks
  · -- policy check
    simp only [build_identity_proof]
    rw [List.all_eq_true]
    intro kr hkr
    obtain ⟨hk1, hk2⟩ := hpol kr hkr
    simp [hk1, hk2]
  · -- pairing check
    simp only [build_identity_proof, pairE]
    rw [hpk]
    linear_combination (-(r1 * PP.g2)) * hrel
  · -- Schnorr re-derivation
    simp only [build_identity_proof, verifierT]
    rw [T_match hashS PP vals s r1 x
      (proverChallenge hashS hashG PP vals cA x s v_int D r1 k_x k_r1 k_sp k_s k_m)
      k_x k_r1 k_sp k_m D hD (r1 * cA)]
    rfl
  · -- DID binding check
    simp only [build_identity_proof, did_check]
    exact decide_eq_true (by ring)

/-- C3: `Issuer.verify_nizk` accepts exactly when `h_i ** z == C ** c * R`
with `c = H(ser h_i || ser C || ser R)`; consequently, when the challenge
is nonzero and the commitment is not `h_i ** m` for the scalar m implicit
in z (namely m = (z - r) / c for the nonce r with R = h_i ** r), the check
fails and the whole issue request is rejected. -/
theorem nizk_sound {q : ℕ} [Fact q.Prime] (hashS : String → ZMod q)
    (hashG : List (ZMod q) → ZMod q) (PP : PubParams q) (sk x s : ZMod q)
    (attrs : ℕ → Option (AttrSlot q)) (i : ℕ) (C R z r : ZMod q)
    (hi : i ∈ List.range' 1 PP.n)
    (hslot : attrs i = some (AttrSlot.blind C R z)) :
    (verify_nizk hashG (PP.h i) C R z = true ↔
      z * PP.h i = hashG [PP.h i, C, R] * C + R)
    ∧ (R = r * PP.h i → hashG [PP.h i, C, R] ≠ 0 →
        C ≠ (z - r) * (hashG [PP.h i, C, R])⁻¹ * PP.h i →
        verify_nizk hashG (PP.h i) C R z = false
        ∧ issue hashS hashG PP sk attrs x s = none) := by
  constructor
  · unfold verify_nizk
    exact decide_eq_true_iff
  · intro hR hc hC
    have hfalse : verify_nizk hashG (PP.h i) C R z = false := by
      by_contra hcon
      rw [Bool.not_eq_false] at hcon
      unfold verify_nizk at hcon
      have heq := of_decide_eq_true hcon
      apply hC
      have hCc : hashG [PP.h i, C, R] * C = (z - r) * PP.h i := by
        linear_combination -heq - hR
      field_simp
      linear_combination hCc
    refine ⟨hfalse, ?_⟩
    unfold issue
    rw [issue_acc_none hashS hashG PP attrs i C R z hslot hfalse
      (List.range' 1 PP.n) (PP.g1 + s * PP.h 0) hi]

/-- C4: for a proof reaching the fourth check of `Verifier.verify`, the
DID-binding check accepts iff `u ** z_s == R3 * v ** c`; and for the
honestly-formed `R3 = u ** k_s` and response `z_s = k_s + c * s` with a
nonzero challenge, the check succeeds exactly when the exposed pair
satisfies `did_v = did_u ** s`, i.e. when the credential scalar s links
the two DID points. -/
theorem did_binding {q : ℕ} [Fact q.Prime] (c z_s s k_s u v R3 : ZMod q)
    (hR3 : R3 = k_s * u) (hz : z_s = k_s + c * s) (hc : c ≠ 0) :
    (did_check c z_s u v R3 = true ↔ z_s * u = R3 + c * v)
    ∧ (did_check c z_s u v R3 = true ↔ v = s * u) := by
  constructor
  · unfold did_check
    rw [decide_eq_true_iff]
    constructor
    · intro h
      exact h.symm
    · intro h
      exact h.symm
  · unfold did_check
    rw [decide_eq_true_iff]
    subst hR3
    subst hz
    constructor
    · intro h
      have hcv : c * v = c * (s * u) := by linear_combination h
      exact mul_left_cancel₀ hc hcv
    · intro h
      rw [h]
      ring

theorem validate_attrs_ok {q : ℕ} (raw : ℕ → Option (AttrSlot q)) :
    ∀ l : List ℕ,
      (∀ j ∈ l, ∃ sl, raw j = some sl ∧ sl ≠ AttrSlot.malformed) →
      validate_attrs raw l = none
  | [], _ => rfl
  | j :: rest, hok => by
      obtain ⟨sl, hsl, hne⟩ := hok j (List.mem_cons_self j rest)
      have hrec := validate_attrs_ok raw rest
        (fun a ha => hok a (List.mem_cons_of_mem j ha))
      cases sl with
      | value v =>
          simp only [validate_attrs, hsl]
          exact hrec
      | blind C R z =>
          simp only [validate_attrs, hsl]
          exact hrec
      | malformed => exact absurd rfl hne

theorem validate_attrs_missing {q : ℕ} (raw : ℕ → Option (AttrSlot q)) :
    ∀ (l1 l2 : List ℕ) (i : ℕ),
      (∀ j ∈ l1, ∃ sl, raw j = some sl ∧ sl ≠ AttrSlot.malformed) →
      raw i = none →
      validate_attrs raw (l1 ++ i :: l2) = some (IssueError.missingSlot i)
  | [], l2, i, _, hmiss => by
      simp only [List.nil_append, validate_attrs, hmiss]
  | j :: rest, l2, i, hok, hmiss => by
      obtain ⟨sl, hsl, hne⟩ := hok j (List.mem_cons_self j rest)
      have hrec := validate_attrs_missing raw rest l2 i
        (fun a ha => hok a (List.mem_cons_of_mem j ha)) hmiss
      cases sl with
      | value v =>
          simp only [List.cons_append, validate_attrs, hsl]
          exact hrec
      | blind C R z =>
          simp only [List.cons_append, validate_attrs, hsl]
          exact hrec
      | malformed => exact absurd rfl hne

theorem validate_attrs_malformed {q : ℕ} (raw : ℕ → Option (AttrSlot q)) :
    ∀ (l1 l2 : List ℕ) (i : ℕ),
      (∀ j ∈ l1, ∃ sl, raw j = some sl ∧ sl ≠ AttrSlot.malformed) →
      raw i = some AttrSlot.malformed →
      validate_attrs raw (l1 ++ i :: l2) = some (IssueError.formatError i)
  | [], l2, i, _, hmal => by
      simp only [List.nil_append, validate_attrs, hmal]
  | j :: rest, l2, i, hok, hmal => by
      obtain ⟨sl, hsl, hne⟩ := hok j (List.mem_cons_self j rest)
      have hrec := validate_attrs_malformed raw rest l2 i
        (fun a ha => hok a (List.mem_cons_of_mem j ha)) hmal
      cases sl with
      | value v =>
          simp only [List.cons_append, validate_attrs, hsl]
          exact hrec
      | blind C R z =>
          simp only [List.cons_append, validate_attrs, hsl]
          exact hrec
      | malformed => exact absurd rfl hne

/-- C8 amended: a missing slot, a malformed slot and a rejected NIZK each
refuse the issue request, the first two with their own error kinds keyed
by the offending slot and the NIZK rejection with the generic
issuance-failure kind, and these kinds are pairwise distinct; but
`sk + x = 0` is not rejected: the issuer proceeds with the inversion and
an all-cleartext request is answered with a credential whose A component
is the identity. -/
theorem issue_route_error_kinds {q : ℕ} [Fact q.Prime]
    (hashS : String → ZMod q) (hashG : List (ZMod q) → ZMod q)
    (PP : PubParams q) (sk x s : ZMod q) (raw : ℕ → Option (AttrSlot q)) :
    (∀ (l1 l2 : List ℕ) (i : ℕ), List.range' 1 PP.n = l1 ++ i :: l2 →
        (∀ j ∈ l1, ∃ sl, raw j = some sl ∧ sl ≠ AttrSlot.malformed) →
        raw i = none →
        issue_route hashS hashG PP sk raw PP.n x s =
          Except.error (IssueError.missingSlot i))
    ∧ (∀ (l1 l2 : List ℕ) (i : ℕ), List.range' 1 PP.n = l1 ++ i :: l2 →
        (∀ j ∈ l1, ∃ sl, raw j = some sl ∧ sl ≠ AttrSlot.malformed) →
        raw i = some AttrSlot.malformed →
        issue_route hashS hashG PP sk raw PP.n x s =
          Except.error (IssueError.formatError i))
    ∧ (∀ (i : ℕ) (C R z : ZMod q),
        (∀ j ∈ List.range' 1 PP.n, ∃ sl, raw j = some sl ∧
          sl ≠ AttrSlot.malformed) →
        i ∈ List.range' 1 PP.n →
        raw i = some (AttrSlot.blind C R z) →
        verify_nizk hashG (PP.h i) C R z = false →
        issue_route hashS hashG PP sk raw PP.n x s =
          Except.error IssueError.issueFailed)
    ∧ (∀ vals : ℕ → String, raw = cleartextAttrs vals → sk + x = 0 →
        issue_route hashS hashG PP sk raw PP.n x s = Except.ok ⟨0, x, s⟩)
    ∧ (∀ i j : ℕ, IssueError.missingSlot i ≠ IssueError.formatError j
        ∧ IssueError.missingSlot i ≠ IssueError.issueFailed
        ∧ IssueError.formatError j ≠ IssueError.issueFailed) := by
  refine ⟨?_, ?_, ?_, ?_, ?_⟩
  · intro l1 l2 i hsplit hok hmiss
    unfold issue_route
    rw [if_neg (fun hcon => hcon rfl), hsplit,
      validate_attrs_missing raw l1 l2 i hok hmiss]
  · intro l1 l2 i hsplit hok hmal
    unfold issue_route
    rw [if_neg (fun hcon => hcon rfl), hsplit,
      validate_attrs_malformed raw l1 l2 i hok hmal]
  · intro i C R z hall hi hslot hnz
    unfold issue_route
    rw [if_neg (fun hcon => hcon rfl),
      validate_attrs_ok raw (List.range' 1 PP.n) hall]
    have hnone : issue hashS hashG PP sk raw x s = none := by
      unfold issue
      rw [issue_acc_none hashS hashG PP raw i C R z hslot hnz
        (List.range' 1 PP.n) (PP.g1 + s * PP.h 0) hi]
    rw [hnone]
  · intro vals hraw hzero
    subst hraw
    unfold issue_route
    rw [if_neg (fun hcon => hcon rfl)]
    have hvalid : validate_attrs (cleartextAttrs vals : ℕ → Option (AttrSlot q))
        (List.range' 1 PP.n) = none :=
      validate_attrs_ok _ _ (fun j _ => ⟨AttrSlot.value (vals j), rfl, by simp⟩)
    rw [hvalid]
    have hslots : ∀ j ∈ List.range' 1 PP.n,
        SlotOk hashS hashG PP (cleartextAttrs vals)
          (fun i => hashS (vals i)) j :=
      fun j _ => Or.inl ⟨vals j, rfl, rfl⟩
    have hred : issue hashS hashG PP sk (cleartextAttrs vals) x s =
        some ⟨(sk + x)⁻¹ * (PP.g1 + s * PP.h 0 +
          ((List.range' 1 PP.n).map fun i => hashS (vals i) * PP.h i).sum),
          x, s⟩ := by
      unfold issue
      rw [issue_acc_eq hashS hashG PP (cleartextAttrs vals)
        (fun i => hashS (vals i)) (List.range' 1 PP.n)
        (PP.g1 + s * PP.h 0) hslots]
    rw [hzero, inv_zero, zero_mul] at hred
    rw [hred]
  · intro i j
    exact ⟨by simp, by simp, by simp⟩

/-! Concrete instances used to evaluate the definitions on explicit
inputs: a toy hash context for the ledger layer and a toy pairing setting
over the prime field with 7 elements. -/

def exHp : String → String → String := fun a b => a ++ b

def exHtx : Tx → String := fun t => t.u ++ "|" ++ t.v

def exHashCtx : HashCtx := ⟨exHp, exHtx, "e", fun _ p m _ => p ++ m⟩

def exHashS : String → ZMod 7 := fun _ => 1

def exHashG : List (ZMod 7) → ZMod 7 := fun l => l.sum

def exPP1 : PubParams 7 := ⟨1, 1, 1, 1, 1, fun _ => 1⟩

def exPP2 : PubParams 7 := ⟨2, 1, 1, 1, 1, fun _ => 1⟩

def exVals : ℕ → String := fun _ => "a"

def exCred : Credential 7 := ⟨2, 1, 1⟩

def exM : ℕ → ZMod 7 := fun i => if i = 1 then 1 else 2

def exAttrsMixed : ℕ → Option (AttrSlot 7) := fun i =>
  if i = 1 then some (AttrSlot.value "a") else some (AttrSlot.blind 2 1 2)

def exCredMixed : Credential 7 := ⟨6, 1, 1⟩

def exAttrsBad : ℕ → Option (AttrSlot 7) := fun _ =>
  some (AttrSlot.blind 4 1 2)

def exTxs : List Tx := [⟨"a", "b"⟩, ⟨"c", "d"⟩, ⟨"e", "f"⟩]

def exChainDup : Blockchain :=
  ⟨[mkBlock exHashCtx 0 zeros64 [⟨"a", "b"⟩, ⟨"a", "b"⟩, ⟨"x", "y"⟩] 0], []⟩

instance : Fact (Nat.Prime 7) := ⟨by norm_num⟩

/-- C8 counterexample: an issue request over a well-formed all-cleartext
attribute vector with `sk + x = 0` (here sk = 3, x = 4 in the field with
7 elements) is not refused: the route answers with a credential instead of
rejecting the zero denominator. -/
theorem issue_route_no_zero_check :
    issue_route exHashS exHashG exPP1 3 (cleartextAttrs exVals) exPP1.n 4 1 =
      Except.ok ⟨0, 4, 1⟩ := by
  have hacc : issue_acc exHashS exHashG exPP1 (cleartextAttrs exVals)
      (List.range' 1 exPP1.n) (exPP1.g1 + 1 * exPP1.h 0) = some 3 := by decide
  have hiss : issue exHashS exHashG exPP1 3 (cleartextAttrs exVals) 4 1 =
      some ⟨0, 4, 1⟩ := by
    unfold issue
    rw [hacc]
    show some (⟨((3 : ZMod 7) + 4)⁻¹ * 3, 4, 1⟩ : Credential 7) =
      some ⟨0, 4, 1⟩
    rw [show ((3 : ZMod 7) + 4) = 0 from by decide, inv_zero, zero_mul]
  unfold issue_route
  rw [if_neg (fun hcon => hcon rfl),
    show validate_attrs (cleartextAttrs exVals : ℕ → Option (AttrSlot 7))
      (List.range' 1 exPP1.n) = none from by decide, hiss]

theorem disclosure_correct_witness :
    verify exHashS exHashG exPP2 [(1, "a")]
      (build_identity_proof exHashS exHashG exPP2 exVals exCred.A exCred.x
        exCred.s (exCred.s * 3) 3 {1} 1 1 1 1 1 (fun _ => 1)) =
      VerifyResult.ok :=
  disclosure_correct exHashS exHashG exPP2 1 exVals 1 1 1 1 1 1 1 3
    (fun _ => 1) [(1, "a")] {1} exCred (by decide) (by decide)
    (by
      have hacc : issue_acc exHashS exHashG exPP2 (cleartextAttrs exVals)
          (List.range' 1 exPP2.n) (exPP2.g1 + 1 * exPP2.h 0) = some 4 := by
        decide
      unfold issue
      rw [hacc]
      show some (⟨((1 : ZMod 7) + 1)⁻¹ * 4, 1, 1⟩ : Credential 7) = some exCred
      rw [show ((1 : ZMod 7) + 1)⁻¹ = 4 from
        inv_eq_of_mul_eq_one_right (by decide)]
      decide)
    (by decide) (by decide)

theorem issue_bbs_relation_witness :
    pairE exCredMixed.A ((1 : ZMod 7) * exPP2.g2 + exPP2.pk) =
      pairE (exPP2.g1 + (1 : ZMod 7) * exPP2.h 0 +
        ∑ i in Finset.Icc 1 exPP2.n, exM i * exPP2.h i) exPP2.g2 :=
  issue_bbs_relation exHashS exHashG exPP2 1 1 1 exAttrsMixed exM exCredMixed
    (by decide) (by decide)
    (by
      intro i hi
      rcases Finset.mem_Icc.mp hi with ⟨h1, h2⟩
      have h3 : i ≤ 2 := h2
      interval_cases i
      · exact Or.inl ⟨"a", by decide, by decide⟩
      · exact Or.inr ⟨1, 2, by decide, by decide⟩)
    (by
      have hacc : issue_acc exHashS exHashG exPP2 exAttrsMixed
          (List.range' 1 exPP2.n) (exPP2.g1 + 1 * exPP2.h 0) = some 5 := by
        decide
      unfold issue
      rw [hacc]
      show some (⟨((1 : ZMod 7) + 1)⁻¹ * 5, 1, 1⟩ : Credential 7) =
        some exCredMixed
      rw [show ((1 : ZMod 7) + 1)⁻¹ = 4 from
        inv_eq_of_mul_eq_one_right (by decide)]
      decide)

theorem nizk_sound_witness :
    verify_nizk exHashG (exPP1.h 1) 4 1 2 = false
    ∧ issue exHashS exHashG exPP1 1 exAttrsBad 1 1 = none :=
  (nizk_sound exHashS exHashG exPP1 1 1 1 exAttrsBad 1 4 1 2 1
    (by decide) (by decide)).2 (by decide) (by decide)
    (by
      rw [show (exHashG [exPP1.h 1, (4 : ZMod 7), 1]) = 6 from by decide,
        show ((6 : ZMod 7))⁻¹ = 6 from inv_eq_of_mul_eq_one_right (by decide)]
      decide)

theorem did_binding_witness :
    (did_check (1 : ZMod 7) 5 2 6 4 = true ↔ (5 : ZMod 7) * 2 = 4 + 1 * 6)
    ∧ (did_check (1 : ZMod 7) 5 2 6 4 = true ↔ (6 : ZMod 7) = 3 * 2) :=
  did_binding 1 5 3 2 2 6 4 (by decide) (by decide) (by decide)

theorem merkle_inclusion_witness :
    verify_proof exHp exHtx (exTxs.getD 1 ⟨"", ""⟩)
      (build_merkle_root exHp exHtx "e" exTxs)
      (get_merkle_proof exHp exHtx exTxs 1) = true :=
  (merkle_inclusion exHp exHtx "e" exTxs 1 (by decide)).1

theorem chain_integrity_witness :
    ((run_ledger exHashCtx 0 [LedgerOp.submit "a" "b",
        LedgerOp.mine 5]).chain.getD 1 blockDflt).prev_hash =
      Block.hashOf exHashCtx
        ((run_ledger exHashCtx 0 [LedgerOp.submit "a" "b",
          LedgerOp.mine 5]).chain.getD 0 blockDflt) :=
  (chain_integrity exHashCtx 0
    [LedgerOp.submit "a" "b", LedgerOp.mine 5]).1 1 (by decide) (by decide)

theorem mine_empty_noop_witness :
    mine_block exHashCtx (create_genesis_block exHashCtx 0) 3 =
      (create_genesis_block exHashCtx 0, MineOutcome.ledgerEmpty)
    ∧ mine_block_route exHashCtx (create_genesis_block exHashCtx 0) 3 =
      (create_genesis_block exHashCtx 0, 400, MineOutcome.ledgerEmpty)
    ∧ (mine_block exHashCtx (create_genesis_block exHashCtx 0)
        3).1.chain.length = (create_genesis_block exHashCtx 0).chain.length :=
  mine_empty_noop exHashCtx (create_genesis_block exHashCtx 0) 3 rfl

theorem issue_route_error_kinds_witness :
    issue_route exHashS exHashG exPP1 1 (fun _ => none) exPP1.n 1 1 =
      Except.error (IssueError.missingSlot 1) :=
  (issue_route_error_kinds exHashS exHashG exPP1 1 1 1 (fun _ => none)).1
    [] [] 1 (by decide) (by simp) rfl

theorem spv_first_match_witness :
    ∃ p : SpvProof, get_spv_proof exHashCtx exChainDup 0 "a" "b" = some p
      ∧ (exChainDup.chain.getD 0 blockDflt).transactions.getD p.tx_index
          ⟨"", ""⟩ = ⟨"a", "b"⟩
      ∧ (∀ j, j < p.tx_index →
          (exChainDup.chain.getD 0 blockDflt).transactions.getD j ⟨"", ""⟩ ≠
            ⟨"a", "b"⟩)
      ∧ p.tx_index ≤ 0
      ∧ p.merkle_proof = get_merkle_proof exHashCtx.hp exHashCtx.htx
          (exChainDup.chain.getD 0 blockDflt).transactions p.tx_index :=
  spv_first_match exHashCtx exChainDup 0 "a" "b" 0 1 (by decide) (by decide)
    (by decide) (by decide) (by decide)

end IDLock
